import Mathlib

/-!
# Verification of the `utreexo-rs` dynamic hash accumulator

Shallow embedding of `src/lib.rs` and `src/proof.rs` of the `eupn/utreexo-rs`
repository, together with proofs and refutations of the specification's claims.

The digest type (`Hash` in the source, 32-byte SHA-256 output) is modelled as a
type parameter `D` with decidable equality, and the pair hash
`Utreexo::hash_pair` (SHA-256 of the concatenation) as a parameter
`hp : D → D → D`.  The specification declares the hash primitive an external
collaborator, so the embedding is parametric in it; concrete witnesses and
counterexamples instantiate `D := Nat` with an injective pairing function.

The Rust `HashMap<Hash, ProofStep>` of an `Update` is modelled as the
chronological association list of the `insert` calls; lookup takes the most
recent binding, matching `HashMap::insert` overwrite semantics.
-/

set_option autoImplicit false
set_option linter.unusedSectionVars false

namespace Utreexo

variable {D : Type} [DecidableEq D]

/-- `ProofStep` from `src/proof.rs`: one level of a Merkle inclusion path.
`hash` is the sibling digest; `is_left` tells whether the sibling sits on the
left of the node being lifted. -/
structure ProofStep (D : Type) where
  hash : D
  is_left : Bool
deriving DecidableEq, Repr

/-- `Proof` from `src/proof.rs`: a leaf together with its path of siblings. -/
structure Proof (D : Type) where
  steps : List (ProofStep D)
  leaf : D
deriving DecidableEq, Repr

/-- `Utreexo::parent`: lift a digest one level using a proof step.
`hash_pair(sibling, h)` when the sibling is on the left, else
`hash_pair(h, sibling)`. -/
def parent (hp : D → D → D) (h : D) (s : ProofStep D) : D :=
  if s.is_left then hp s.hash h else hp h s.hash

/-- Lookup in the chronological edge list of an `Update`, most recent binding
wins (the semantics of repeated `HashMap::insert`). -/
def lookupLast : List (D × ProofStep D) → D → Option (ProofStep D)
  | [], _ => none
  | e :: rest, k =>
    match lookupLast rest k with
    | some s => some s
    | none => if k = e.1 then some e.2 else none

/-- `Update::prove`'s loop: follow the edge map from `item` upward until no
edge is found.  The Rust loop is unbounded (it would diverge on a cyclic edge
map, which a hash collision could produce); the embedding carries explicit
fuel.  `proveF` below supplies fuel that exceeds the length of every
terminating run of the source loop. -/
def proveLoop (hp : D → D → D) (es : List (D × ProofStep D)) :
    Nat → D → List (ProofStep D)
  | 0, _ => []
  | fuel + 1, item =>
    match lookupLast es item with
    | some s => s :: proveLoop hp es fuel (parent hp item s)
    | none => []

/-- `Update::prove`: build the inclusion proof of `leaf` from the edge map of
an update. -/
def proveF (hp : D → D → D) (es : List (D × ProofStep D)) (leaf : D) : Proof D :=
  ⟨proveLoop hp es (es.length + 1) leaf, leaf⟩

/-- `Utreexo::verify`: reject a proof whose step count is out of range or
whose root slot is absent, otherwise fold the leaf through the steps and
compare with the root at height `steps.length`. -/
def verifyF (hp : D → D → D) (roots : List (Option D)) (p : Proof D) : Bool :=
  if p.steps.length ≥ roots.length then false
  else
    match roots.getD p.steps.length none with
    | some expected => decide (p.steps.foldl (parent hp) p.leaf = expected)
    | none => false

/-- `Utreexo::find_root`: index of the first occurrence of `hash` in a working
bucket (the source returns `(0, false)` on a miss; the embedding returns
`none`). -/
def findRoot (hash : D) : List D → Option Nat
  | [] => none
  | r :: rest => if hash = r then some 0 else (findRoot hash rest).map (· + 1)

/-- The spill of a proof-step sibling into the working forest during
`Utreexo::delete`: the source pads `new_roots` with empty buckets while
`height > new_roots.len()` and then pushes into `new_roots[height]`.  (If the
pad stopped at `len = height` the source would panic on the index; that point
is unreachable because the walk keeps `height < roots.len() ≤ buckets.len()`;
the embedding totalises it by appending a fresh bucket.) -/
def pushAt (B : List (List D)) (height : Nat) (x : D) : List (List D) :=
  let P := B ++ List.replicate (height - B.length) ([] : List D)
  if height < P.length then P.set height ((P.getD height []) ++ [x])
  else P ++ [[x]]

/-- The main loop of `Utreexo::delete`, walking a deletion proof from the leaf
upward.  At each height: if the running hash occurs in the working bucket the
entry is consumed and the remaining steps are folded and compared against the
committed root at index `steps.length` ("fold-only mode"); otherwise the
step's sibling is spilled into the bucket and the walk continues one level
up.  Fuel `steps.length + 1` covers every iteration the source performs, since
the source loop bails out as soon as `height ≥ steps.length` without a match. -/
def deleteWalk (hp : D → D → D) (roots : List (Option D))
    (steps : List (ProofStep D)) :
    Nat → List (List D) → Nat → D → Option (List (List D))
  | 0, _, _, _ => none
  | fuel + 1, B, height, hash =>
    match (if height < B.length then findRoot hash (B.getD height []) else none) with
    | some idx =>
      let B' := B.set height ((B.getD height []).eraseIdx idx)
      let rest := steps.drop height
      if roots.getD (height + rest.length) none = some (rest.foldl (parent hp) hash)
      then some B' else none
    | none =>
      if hlt : height < steps.length then
        deleteWalk hp roots steps fuel
          (pushAt B height (steps.get ⟨height, hlt⟩).hash)
          (height + 1) (parent hp hash (steps.get ⟨height, hlt⟩))
      else none

/-- The precondition check opening `Utreexo::delete` (src/lib.rs lines
137–139): error when `roots.len() < steps.len()` or `roots.get(steps.len())`
is `None` (i.e. the index is out of bounds — `get` on `Vec<Option<Hash>>`
yields `Option<&Option<Hash>>`, so this does not inspect the inner option). -/
def deletePre (roots : List (Option D)) (p : Proof D) : Bool :=
  decide (roots.length < p.steps.length) || (roots[p.steps.length]?).isNone

/-- `Utreexo::delete`: precondition check, then the walk. -/
def deleteF (hp : D → D → D) (roots : List (Option D)) (p : Proof D)
    (B : List (List D)) : Option (List (List D)) :=
  if deletePre roots p then none
  else deleteWalk hp roots p.steps (p.steps.length + 1) B 0 p.leaf

/-- The deletion pass of `Utreexo::update`: apply each deletion proof in caller
order, propagating the first failure. -/
def applyDeletions (hp : D → D → D) (roots : List (Option D)) :
    List (Proof D) → List (List D) → Option (List (List D))
  | [], B => some B
  | p :: rest, B =>
    match deleteF hp roots p B with
    | none => none
    | some B' => applyDeletions hp roots rest B'

/-- Output of merging one working bucket: the carries pushed into the bucket
one level up (chronological order), the edges recorded into the update map
(chronological order), and the leftover entry, if any. -/
structure LevelOut (D : Type) where
  carries : List D
  edges : List (D × ProofStep D)
  leftover : Option D
deriving Repr

/-- The inner `while` of the merge loop of `Utreexo::update`, acting on the
reversed bucket: the source repeatedly takes the two latest entries `a` (second
to last) and `b` (last), pops them, pushes `hash_pair(a, b)` up, and records
`a → {sibling: b, is_left: false}` and `b → {sibling: a, is_left: true}`. -/
def mergePairs (hp : D → D → D) : List D → LevelOut D
  | [] => ⟨[], [], none⟩
  | [x] => ⟨[], [], some x⟩
  | b :: a :: rest =>
    let r := mergePairs hp rest
    ⟨hp a b :: r.carries,
     (a, ⟨b, false⟩) :: (b, ⟨a, true⟩) :: r.edges,
     r.leftover⟩

/-- Merge one working bucket (the source pops from the end, so the reversed
bucket is processed front-to-back). -/
def mergeLevelF (hp : D → D → D) (bucket : List D) : LevelOut D :=
  mergePairs hp bucket.reverse

/-- Result of the whole merge phase: leftovers of the processed levels (one
per initial bucket), the content of the one bucket the loop may have pushed
beyond its initial range, and the chronological edge list. -/
structure MergeOut (D : Type) where
  leftovers : List (Option D)
  top : List D
  edges : List (D × ProofStep D)
deriving Repr

/-- The outer `for i in 0..new_roots.len()` merge loop of `Utreexo::update`.
The range bound is evaluated once, so exactly the initial buckets are
processed; carries from level `i` are appended to bucket `i + 1`, and carries
out of the last processed level accumulate in a fresh top bucket that is never
itself merged. -/
def runMergeAux (hp : D → D → D) : List (List D) → List D → MergeOut D
  | [], carry => ⟨[], carry, []⟩
  | b :: rest, carry =>
    let lv := mergeLevelF hp (b ++ carry)
    let r := runMergeAux hp rest lv.carries
    ⟨lv.leftover :: r.leftovers, r.top, lv.edges ++ r.edges⟩

/-- The final bucket vector after the merge phase: each processed level holds
its leftover (zero or one entries) and, when the top carry list is nonempty, a
last bucket holding it. -/
def newRootsOf (m : MergeOut D) : List (List D) :=
  m.leftovers.map Option.toList ++ (if m.top.isEmpty then [] else [m.top])

/-- `cut_off` in `Utreexo::update`: number of trailing empty buckets. -/
def countTrailingEmpty (l : List (List D)) : Nat :=
  (l.reverse.takeWhile (fun b => b.isEmpty)).length

/-- The commit step of `Utreexo::update`: drop trailing empty buckets and
project each remaining bucket to an optional root. -/
def commitRoots (NB : List (List D)) : List (Option D) :=
  (NB.take (NB.length - countTrailingEmpty NB)).map (fun b => b.head?)

/-- `roots.map(...)` staging of `Utreexo::update`: each present root becomes a
singleton working bucket. -/
def bucketsInit (roots : List (Option D)) : List (List D) :=
  roots.map Option.toList

/-- The insertion staging of `Utreexo::update`: push `[[]]` when the bucket
vector is empty, then append the insertions to bucket 0. -/
def stageIns (B : List (List D)) (ins : List D) : List (List D) :=
  match B with
  | [] => [ins]
  | b :: r => (b ++ ins) :: r

/-- `Utreexo::update` as a state transformer: the first component is the
returned value (`Ok` carries the new roots and the update's edge list, `None`
is the uniform `Err(())` of the source), the second the `roots` field after
the call.  The source mutates `self.roots` only in the commit phase, after the
last error return, which the embedding mirrors. -/
def updateS (hp : D → D → D) (roots : List (Option D)) (ins : List D)
    (dels : List (Proof D)) :
    Option (List (Option D) × List (D × ProofStep D)) × List (Option D) :=
  match applyDeletions hp roots dels (bucketsInit roots) with
  | none => (none, roots)
  | some B1 =>
    let m := runMergeAux hp (stageIns B1 ins) []
    let NB := newRootsOf m
    if NB.all (fun b => decide (b.length ≤ 1)) then
      (some (commitRoots NB, m.edges), commitRoots NB)
    else (none, roots)

/-- The return value of `Utreexo::update`. -/
def updateF (hp : D → D → D) (roots : List (Option D)) (ins : List D)
    (dels : List (Proof D)) :
    Option (List (Option D) × List (D × ProofStep D)) :=
  (updateS hp roots ins dels).1

/-- The loop of `Proof::update` (proof refresh).  The iteration bound
`0..=self.steps.len()` is captured once at loop entry, which the fuel mirrors:
`refreshF` passes `p.steps.length + 1`.  All exits of the source loop return
`Ok`; the `Except` layer records that every exit is an `Ok` exit.  The inner
`steps[i]` index is guarded by `i ≠ steps.len()`; when `steps[i]?` is `none`
the source would panic, which is unreachable because the running step list
never gets shorter than `i`. -/
def refreshLoop (hp : D → D → D) (roots : List (Option D))
    (es : List (D × ProofStep D)) :
    Nat → Nat → List (ProofStep D) → D → Except Unit (List (ProofStep D))
  | 0, _, steps, _ => .ok steps
  | fuel + 1, i, steps, h =>
    if roots[i]? = some (some h) then .ok (steps.take i)
    else
      match lookupLast es h with
      | some step =>
        refreshLoop hp roots es fuel (i + 1) (steps.take i ++ [step])
          (parent hp h step)
      | none =>
        if i = steps.length then .ok steps
        else
          match steps[i]? with
          | some s => refreshLoop hp roots es fuel (i + 1) steps (parent hp h s)
          | none => .ok steps

/-- `Proof::update` (refresh): run the loop against the post-update forest
`roots` and edge list `es`, keeping the leaf. -/
def refreshF (hp : D → D → D) (roots : List (Option D))
    (es : List (D × ProofStep D)) (p : Proof D) : Except Unit (Proof D) :=
  match refreshLoop hp roots es (p.steps.length + 1) 0 p.steps p.leaf with
  | .ok steps => .ok ⟨steps, p.leaf⟩
  | .error e => .error e

/-- Whether an `Except` result is `Ok`. -/
def isOkE {α : Type} : Except Unit α → Bool
  | .ok _ => true
  | .error _ => false

/-! ### Spec-side definitions

`liftSpec` and `verifySpec` are modelled from the spec's words (§3 and §4.6:
"Let `n = len(proof.steps)`. Reject if `n ≥ len(roots)` or `roots[n]` is
absent. Otherwise fold from `proof.leaf` using `lift` for every step; accept
iff the final digest byte-equals `roots[n]`"), to be compared with the
source-derived `verifyF` in the refinement claim C7. -/

/-- The spec's `lift(h, step)`: `hash_pair(step.sibling, h)` if `step.is_left`
else `hash_pair(h, step.sibling)`. -/
def liftSpec (hp : D → D → D) (cur : D) (s : ProofStep D) : D :=
  if s.is_left then hp s.hash cur else hp cur s.hash

/-- §4.6 of the spec, word for word: reject on out-of-range step count or
absent root slot, else fold and compare. -/
def verifySpec (hp : D → D → D) (roots : List (Option D)) (p : Proof D) : Bool :=
  match roots[p.steps.length]? with
  | some (some r) => decide (p.steps.foldl (liftSpec hp) p.leaf = r)
  | _ => false

/-! ### Analysis definitions -/

/-- Leaf weight of a committed root vector: a present root at height `h`
commits `2 ^ h` leaves. -/
def optWeight : List (Option D) → Nat
  | [] => 0
  | o :: rest => (if o.isSome then 1 else 0) + 2 * optWeight rest

/-- Leaf weight of a working bucket vector: an entry at height `h` stands for
a perfect subtree of `2 ^ h` leaves. -/
def bweight : List (List D) → Nat
  | [] => 0
  | b :: rest => b.length + 2 * bweight rest

/-- Forest states reachable from a fresh `Utreexo::new` by successful updates,
indexed by the running population (total insertions minus total deletions of
the successful batches). -/
inductive Reachable (hp : D → D → D) : Nat → List (Option D) → Prop where
  | base (c : Nat) : Reachable hp 0 (List.replicate c none)
  | step {n : Nat} {roots R' : List (Option D)} {ins : List D}
      {dels : List (Proof D)} {es : List (D × ProofStep D)} :
      Reachable hp n roots →
      updateF hp roots ins dels = some (R', es) →
      Reachable hp (n + ins.length - dels.length) R'

/-- The contents of the working buckets at the moment each level is processed
by the merge loop (last entry: the top carry bucket the loop never merges). -/
def levelsOf (hp : D → D → D) : List (List D) → List D → List (List D)
  | [], carry => [carry]
  | b :: rest, carry =>
    (b ++ carry) :: levelsOf hp rest (mergeLevelF hp (b ++ carry)).carries

/-- No element of `l₁` occurs in `l₂`. -/
def disjointB (l₁ l₂ : List D) : Bool :=
  l₁.all (fun x => !l₂.contains x)

/-- All lists in the family are pairwise disjoint. -/
def pairwiseDisjB : List (List D) → Bool
  | [] => true
  | l :: ls => ls.all (disjointB l) && pairwiseDisjB ls

end Utreexo

/-- Concrete injective stand-in for the pair hash on `D := Nat`, used by
witnesses and counterexamples.  Its outputs are even, so odd leaf values can
never collide with an interior node. -/
def pairHash (a b : Nat) : Nat := 2 * Nat.pair a b + 2

open Utreexo in
/-- Concrete run refuting claim C1.  Batch 1 inserts five leaves into a fresh
`new(3)` forest, leaving roots at heights 0 and 2.  Batch 2 re-inserts the
height-2 root digest as a fresh leaf (the API accepts arbitrary caller-chosen
digests) along with two new leaves; the batch succeeds, but `prove` for that
inserted leaf follows the edge recorded for the height-2 interior node of the
same value, producing a one-step proof that does not verify. -/
def c1scenario : Bool :=
  match updateF pairHash (List.replicate 3 none) [1, 3, 5, 7, 9] [] with
  | some (r1, _) =>
    match r1.getD 2 none with
    | some a =>
      match updateF pairHash r1 [a, 13, 15] [] with
      | some (r2, es2) =>
        [a, 13, 15].contains a && !verifyF pairHash r2 (proveF pairHash es2 a)
      | none => false
    | none => false
  | none => false

open Utreexo in
/-- Concrete run exhibiting the refresh bug of claim C3.  Batch 1 inserts five
leaves into a fresh `new(3)` forest; the proof of leaf 1 is the empty-step
proof (leaf 1 is the height-0 root) and verifies.  Batch 2 inserts three more
leaves and deletes nothing, lifting leaf 1 three levels; `Proof::update`'s
loop bound `0..=steps.len()` is captured before the step list grows, so the
refreshed proof receives only one of the three required steps and no longer
verifies. -/
def c3scenario : Bool :=
  match updateF pairHash (List.replicate 3 none) [1, 3, 5, 7, 9] [] with
  | some (r1, es1) =>
    let p := proveF pairHash es1 1
    verifyF pairHash r1 p &&
      (match updateF pairHash r1 [13, 15, 17] [] with
       | some (r2, es2) =>
         match refreshF pairHash r2 es2 p with
         | .ok p' => !verifyF pairHash r2 p'
         | .error _ => false
       | none => false)
  | none => false

/-! ## General list lemmas -/

namespace Utreexo

theorem takeWhile_getD_true {α : Type} (p : α → Bool) (l : List α) (d : α) :
    ∀ j : Nat, j < (l.takeWhile p).length → p (l.getD j d) = true := by
  induction l with
  | nil => intro j h; simp at h
  | cons x xs ih =>
    intro j h
    by_cases hx : p x
    · rw [List.takeWhile_cons_of_pos hx, List.length_cons] at h
      cases j with
      | zero => simpa [List.getD_cons_zero] using hx
      | succ j =>
        rw [List.getD_cons_succ]
        exact ih j (by omega)
    · rw [List.takeWhile_cons_of_neg hx] at h
      simp at h

theorem takeWhile_getD_false {α : Type} (p : α → Bool) (l : List α) (d : α)
    (h : (l.takeWhile p).length < l.length) :
    p (l.getD (l.takeWhile p).length d) = false := by
  induction l with
  | nil => simp at h
  | cons x xs ih =>
    by_cases hx : p x
    · rw [List.takeWhile_cons_of_pos hx] at h ⊢
      simp only [List.length_cons] at h ⊢
      rw [List.getD_cons_succ]
      exact ih (by omega)
    · rw [List.takeWhile_cons_of_neg hx]
      simp only [List.length_nil, List.getD_cons_zero]
      exact Bool.not_eq_true _ ▸ (by simpa using hx)

theorem reverse_getD {α : Type} (l : List α) (j : Nat) (d : α)
    (h : j < l.length) :
    l.reverse.getD j d = l.getD (l.length - 1 - j) d := by
  rw [List.getD_eq_getElem?_getD, List.getD_eq_getElem?_getD,
    List.getElem?_reverse h]

variable {D : Type} [DecidableEq D]

theorem cte_le (NB : List (List D)) : countTrailingEmpty NB ≤ NB.length := by
  have := (List.takeWhile_prefix (l := NB.reverse)
    (fun b : List D => b.isEmpty)).length_le
  unfold countTrailingEmpty
  simpa using this

theorem trailing_bucket_empty (NB : List (List D)) (k : Nat)
    (h1 : NB.length - countTrailingEmpty NB ≤ k) (h2 : k < NB.length) :
    NB.getD k [] = [] := by
  have hcle := cte_le NB
  have hj : NB.length - 1 - k < countTrailingEmpty NB := by omega
  have := takeWhile_getD_true (fun b : List D => b.isEmpty) NB.reverse []
    (NB.length - 1 - k) (by unfold countTrailingEmpty at hj; exact hj)
  rw [reverse_getD NB _ _ (by omega)] at this
  have hk : NB.length - 1 - (NB.length - 1 - k) = k := by omega
  rw [hk] at this
  simpa [List.isEmpty_iff] using this

theorem commitRoots_length (NB : List (List D)) :
    (commitRoots NB).length = NB.length - countTrailingEmpty NB := by
  unfold commitRoots
  rw [List.length_map, List.length_take]
  omega

theorem commitRoots_getElem? (NB : List (List D)) (k : Nat)
    (h : k < NB.length - countTrailingEmpty NB) :
    (commitRoots NB)[k]? = some ((NB.getD k []).head?) := by
  have hk : k < NB.length := by have := cte_le NB; omega
  unfold commitRoots
  rw [List.getElem?_map, List.getElem?_take, if_pos h,
    List.getElem?_eq_getElem hk]
  rw [List.getD_eq_getElem?_getD, List.getElem?_eq_getElem hk]
  rfl

theorem commitRoots_last_bucket (NB : List (List D))
    (h : 0 < NB.length - countTrailingEmpty NB) :
    NB.getD (NB.length - countTrailingEmpty NB - 1) [] ≠ [] := by
  have hcle := cte_le NB
  have hcte : (NB.reverse.takeWhile (fun b : List D => b.isEmpty)).length
      = countTrailingEmpty NB := rfl
  have hlt : (NB.reverse.takeWhile (fun b : List D => b.isEmpty)).length
      < NB.reverse.length := by
    rw [hcte, List.length_reverse]
    omega
  have := takeWhile_getD_false (fun b : List D => b.isEmpty) NB.reverse [] hlt
  rw [hcte] at this
  rw [reverse_getD NB _ _ (by omega)] at this
  have hk : NB.length - 1 - countTrailingEmpty NB
      = NB.length - countTrailingEmpty NB - 1 := by omega
  rw [hk] at this
  intro hcon
  rw [hcon] at this
  simp at this

theorem commitRoots_empty_or_last (NB : List (List D)) :
    commitRoots NB = [] ∨ ∃ d, (commitRoots NB).getLast? = some (some d) := by
  by_cases ht : NB.length - countTrailingEmpty NB = 0
  · left
    have := commitRoots_length NB
    rw [ht] at this
    exact List.length_eq_zero.mp this
  · right
    have hlen := commitRoots_length NB
    have hbne := commitRoots_last_bucket NB (by omega)
    obtain ⟨d, rest, hb⟩ : ∃ d rest, NB.getD (NB.length - countTrailingEmpty NB - 1) [] = d :: rest := by
      cases hb : NB.getD (NB.length - countTrailingEmpty NB - 1) [] with
      | nil => exact absurd hb hbne
      | cons d rest => exact ⟨d, rest, rfl⟩
    refine ⟨d, ?_⟩
    rw [List.getLast?_eq_getElem?, hlen,
      commitRoots_getElem? NB _ (by omega), hb]
    rfl

end Utreexo

/-! ## Behaviour of `Proof::update` (refresh): every exit returns `Ok` -/

namespace Utreexo

theorem refreshLoop_isOk {D : Type} [DecidableEq D] (hp : D → D → D)
    (roots : List (Option D)) (es : List (D × ProofStep D)) :
    ∀ (fuel i : Nat) (steps : List (ProofStep D)) (h : D),
      isOkE (refreshLoop hp roots es fuel i steps h) = true
  | 0, _, steps, _ => rfl
  | fuel + 1, i, steps, h => by
    rw [refreshLoop]
    by_cases hr : roots[i]? = some (some h)
    · rw [if_pos hr]; rfl
    · rw [if_neg hr]
      cases hl : lookupLast es h with
      | some step => exact refreshLoop_isOk hp roots es fuel _ _ _
      | none =>
        by_cases hi : i = steps.length
        · rw [if_pos hi]; rfl
        · rw [if_neg hi]
          cases hs : steps[i]? with
          | some s => exact refreshLoop_isOk hp roots es fuel _ _ _
          | none => rfl

theorem refreshF_isOk {D : Type} [DecidableEq D] (hp : D → D → D)
    (roots : List (Option D)) (es : List (D × ProofStep D)) (p : Proof D) :
    isOkE (refreshF hp roots es p) = true := by
  unfold refreshF
  cases hl : refreshLoop hp roots es (p.steps.length + 1) 0 p.steps p.leaf with
  | ok steps => rfl
  | error e =>
    have := refreshLoop_isOk hp roots es (p.steps.length + 1) 0 p.steps p.leaf
    rw [hl] at this
    exact absurd this (by simp [isOkE])

end Utreexo

/-! ## Claim theorems, first group -/

open Utreexo

/-- C1 (counterexample): the claim "for every forest and every successful
batch `update(I, [])`, every `x ∈ I` satisfies `verify(u.prove(x)) = true`"
fails on the concrete run packaged in `c1scenario`: batch 1 inserts
`[1,3,5,7,9]` into a fresh capacity-3 forest, batch 2 successfully re-inserts
the resulting height-2 root digest as a leaf together with `[13, 15]`, and the
proof produced for that inserted leaf does not verify (the edge map keyed by
digest conflates the leaf with the interior node of the same value). -/
theorem c1_counterexample : c1scenario = true := by decide

/-- C2 (counterexample): on `Forest::new(1)`, the batch inserting the two
leaves `[1, 3]` reaches post-state population `2 ≥ 2 ^ 1` yet succeeds,
contradicting the claimed Overflow at population `≥ 2 ^ capacity`. -/
theorem c2_counterexample :
    (updateF pairHash (List.replicate 1 none) [1, 3] []).isSome = true ∧
      2 ^ 1 ≤ 2 := by decide

/-- C3 (code bug): the claim "refresh preserves verification" is the spec's
stated intent (§8.4) and the code's test intent, but the loop of
`Proof::update` iterates `0..=steps.len()` with the bound captured before the
step list grows, so a proof whose item is lifted more than one level beyond
its old root loses the tail of its new path.  `c3scenario` runs the failing
input: a valid empty-step proof of leaf 1 against the forest
`[some 1, none, some r]`, refreshed through the successful batch inserting
`[13, 15, 17]` (which deletes nothing), stops after one appended step and no
longer verifies. -/
theorem c3_refresh_bug : c3scenario = true := by decide

/-- C6 (counterexample): the precondition check opening `Utreexo::delete`
(`roots.len() < steps.len() || roots.get(steps.len()).is_none()`) does NOT
reject a proof whose step count indexes a present slot holding `None`: on
`roots = [none]` and an empty-step proof, the check passes even though
`roots[0]` is absent.  (The deletion still fails, but in the walk, not in this
check.) -/
theorem c6_counterexample :
    deletePre ([none] : List (Option Nat)) ⟨[], 5⟩ = false ∧
      (([none] : List (Option Nat)).getD 0 none).isSome = false := by decide

/-- C9 (counterexample): on a fresh `new(1)` forest, `update([5], [])`
succeeds with an empty edge map, so leaf 5 has no entry in the update's edge
map; `prove(5)` returns the empty-step proof, and that proof DOES verify
(leaf 5 is the height-0 root), contradicting the claim that such proofs never
verify. -/
theorem c9_counterexample :
    updateF pairHash [none] [5] [] = some ([some 5], []) ∧
      lookupLast ([] : List (Nat × ProofStep Nat)) 5 = none ∧
      proveF pairHash [] 5 = ⟨[], 5⟩ ∧
      verifyF pairHash [some 5] (proveF pairHash [] 5) = true := by decide

/-- C9 (amended): for a leaf with no entry in the update's edge map,
`Update::prove` returns the empty-step proof, and that proof verifies iff the
height-0 root slot is present and holds exactly that leaf (so it does NOT
verify except in that one case). -/
theorem c9_amended {D : Type} [DecidableEq D] (hp : D → D → D)
    (es : List (D × ProofStep D)) (x : D) (roots : List (Option D))
    (h : lookupLast es x = none) :
    proveF hp es x = ⟨[], x⟩ ∧
      (verifyF hp roots ⟨[], x⟩ = true ↔ roots[0]? = some (some x)) := by
  constructor
  · unfold proveF
    rw [proveLoop, h]
  · unfold verifyF
    cases roots with
    | nil => simp
    | cons r rest =>
      simp only [List.length_cons, List.length_nil]
      rw [if_neg (by simp)]
      cases r with
      | none => simp
      | some v =>
        simp only [List.getD_cons_zero, List.getElem?_cons_zero]
        constructor
        · intro hv
          have : x = v := by simpa using of_decide_eq_true hv
          simp [this]
        · intro hv
          have : v = x := by simpa using hv
          simp [this]

/-- C9 (witness for the amended claim): concrete instance with an empty edge
map, leaf 5 and forest `[some 5]`. -/
theorem c9_witness :
    proveF pairHash [] 5 = ⟨[], 5⟩ ∧
      (verifyF pairHash [some 5] ⟨[], 5⟩ = true ↔
        (([some 5] : List (Option Nat)))[0]? = some (some 5)) :=
  c9_amended pairHash [] 5 [some 5] rfl

/-- C8 (counterexample, stated as the negation of the claim's existential):
`Proof::update` has no error exit at all — there is no input on which refresh
returns an error. -/
theorem c8_counterexample :
    ¬ ∃ (roots : List (Option Nat)) (es : List (Nat × ProofStep Nat))
        (p : Proof Nat), isOkE (refreshF pairHash roots es p) = false := by
  rintro ⟨roots, es, p, hf⟩
  rw [refreshF_isOk] at hf
  exact Bool.noConfusion hf

/-- C8 (amended): `Proof::update` (refresh) returns `Ok` on every input;
the `InvalidProof` failure modes the spec attributes to refresh do not occur
— a stale or invalid proof is simply returned refreshed-but-useless and fails
later verification. -/
theorem c8_amended {D : Type} [DecidableEq D] (hp : D → D → D)
    (roots : List (Option D)) (es : List (D × ProofStep D)) (p : Proof D) :
    isOkE (refreshF hp roots es p) = true :=
  refreshF_isOk hp roots es p

/-- C7: `Utreexo::verify` coincides with the specification's description
(`verifySpec`, written from §4.6 word for word): reject when the step count is
out of range or the indexed root slot is absent, otherwise fold the leaf
through the steps with `lift` and compare with that root. -/
theorem c7_verify_refines {D : Type} [DecidableEq D] (hp : D → D → D)
    (roots : List (Option D)) (p : Proof D) :
    verifyF hp roots p = verifySpec hp roots p := by
  unfold verifyF verifySpec
  have hlift : liftSpec hp = parent hp := rfl
  by_cases hlen : p.steps.length ≥ roots.length
  · rw [if_pos hlen, List.getElem?_eq_none (by omega)]
  · rw [if_neg hlen]
    have hlt : p.steps.length < roots.length := by omega
    rw [List.getD_eq_getElem?_getD, List.getElem?_eq_getElem hlt, hlift]
    cases roots[p.steps.length] with
    | none => rfl
    | some r => rfl

/-- C4: `Utreexo::update` is atomic — whenever it returns an error, the
`roots` field of the forest is exactly its pre-call value (the source mutates
`self.roots` only in the commit phase, after the last error return). -/
theorem c4_atomic {D : Type} [DecidableEq D] (hp : D → D → D)
    (roots : List (Option D)) (ins : List D) (dels : List (Proof D))
    (h : (updateS hp roots ins dels).1 = none) :
    (updateS hp roots ins dels).2 = roots := by
  unfold updateS at h ⊢
  cases happ : applyDeletions hp roots dels (bucketsInit roots) with
  | none => rfl
  | some B1 =>
    rw [happ] at h
    dsimp only at h ⊢
    by_cases hall : (newRootsOf (runMergeAux hp (stageIns B1 ins) [])).all
        (fun b => decide (b.length ≤ 1)) = true
    · rw [if_pos hall] at h
      exact absurd h (by simp)
    · rw [if_neg hall]

/-- C4 (witness): the overflowing batch `update([1,3,5,7], [])` on
`Forest::new(1)` fails and leaves `roots = [none]` unchanged. -/
theorem c4_witness : (updateS pairHash [none] [1, 3, 5, 7] []).2 = [none] :=
  c4_atomic pairHash [none] [1, 3, 5, 7] [] (by decide)

/-- C10: after every successful `update`, the committed roots vector has no
trailing absent entries — it is either empty or ends in a present digest
(the commit phase trims all trailing empty buckets). -/
theorem c10_no_trailing_none {D : Type} [DecidableEq D] (hp : D → D → D)
    (roots : List (Option D)) (ins : List D) (dels : List (Proof D))
    (R' : List (Option D)) (es : List (D × ProofStep D))
    (h : updateF hp roots ins dels = some (R', es)) :
    R' = [] ∨ ∃ d, R'.getLast? = some (some d) := by
  unfold updateF updateS at h
  cases happ : applyDeletions hp roots dels (bucketsInit roots) with
  | none => rw [happ] at h; exact absurd h (by simp)
  | some B1 =>
    rw [happ] at h
    dsimp only at h
    by_cases hall : (newRootsOf (runMergeAux hp (stageIns B1 ins) [])).all
        (fun b => decide (b.length ≤ 1)) = true
    · rw [if_pos hall] at h
      simp only [Option.some.injEq, Prod.mk.injEq] at h
      obtain ⟨hR, _⟩ := h
      rw [← hR]
      exact commitRoots_empty_or_last _
    · rw [if_neg hall] at h
      exact absurd h (by simp)

/-- C10 (witness): `update([], [])` on a fresh capacity-2 forest succeeds and
shrinks the roots vector to length 0, the empty disjunct of the theorem. -/
theorem c10_witness :
    ([] : List (Option Nat)) = [] ∨
      ∃ d, ([] : List (Option Nat)).getLast? = some (some d) :=
  c10_no_trailing_none pairHash (List.replicate 2 none) [] [] [] []
    (by decide)

/-! ## C6: delete fails whenever the indexed root slot is absent -/

namespace Utreexo

theorem deleteWalk_none_of_absent {D : Type} [DecidableEq D] (hp : D → D → D)
    (roots : List (Option D)) (steps : List (ProofStep D))
    (habs : roots.getD steps.length none = none) :
    ∀ (fuel : Nat) (B : List (List D)) (height : Nat) (hash : D),
      height ≤ steps.length →
      deleteWalk hp roots steps fuel B height hash = none
  | 0, _, _, _ => fun _ => rfl
  | fuel + 1, B, height, hash => by
    intro hh
    rw [deleteWalk]
    cases hf : (if height < B.length then findRoot hash (B.getD height []) else none) with
    | some idx =>
      dsimp only
      have hidx : height + (steps.drop height).length = steps.length := by
        rw [List.length_drop]
        omega
      rw [hidx, habs, if_neg (by simp)]
    | none =>
      dsimp only
      by_cases hlt : height < steps.length
      · rw [dif_pos hlt]
        exact deleteWalk_none_of_absent hp roots steps habs fuel _ _ _ (by omega)
      · rw [dif_neg hlt]

end Utreexo

/-- C6 (amended): the internal delete step fails with `InvalidProof` unless
both `len(proof.steps) < len(roots)` and `roots[len(proof.steps)]` holds a
present digest — but a proof whose step count indexes a present-slot `None` is
rejected by the later root comparison of the walk, not by the opening
precondition check (which only rejects out-of-range step counts, see
`c6_counterexample`). -/
theorem c6_amended {D : Type} [DecidableEq D] (hp : D → D → D)
    (roots : List (Option D)) (p : Proof D) (B : List (List D))
    (h : ¬(p.steps.length < roots.length ∧
        (roots.getD p.steps.length none).isSome = true)) :
    deleteF hp roots p B = none := by
  unfold deleteF
  by_cases hpre : deletePre roots p = true
  · rw [if_pos hpre]
  · rw [if_neg hpre]
    unfold deletePre at hpre
    simp only [Bool.or_eq_true, decide_eq_true_eq, Option.isNone_iff_eq_none,
      not_or] at hpre
    obtain ⟨_, h2⟩ := hpre
    have hn : p.steps.length < roots.length := by
      by_contra hc
      exact h2 (List.getElem?_eq_none (by omega))
    have habs : roots.getD p.steps.length none = none := by
      cases hg : roots.getD p.steps.length none with
      | none => rfl
      | some v => exact absurd ⟨hn, by rw [hg]; rfl⟩ h
    exact deleteWalk_none_of_absent hp roots p.steps habs _ B 0 p.leaf
      (by omega)

/-- C6 (witness for the amended claim): deleting with an empty-step proof
against `roots = [none]` indeed fails. -/
theorem c6_witness :
    deleteF pairHash ([none] : List (Option Nat)) ⟨[], 5⟩ [[]] = none :=
  c6_amended pairHash [none] ⟨[], 5⟩ [[]] (by decide)

/-! ## C2: the actual overflow boundary -/

namespace Utreexo

theorem mergePairs_carries_len {D : Type} [DecidableEq D] (hp : D → D → D) :
    ∀ l : List D, (mergePairs hp l).carries.length = l.length / 2
  | [] => by simp [mergePairs]
  | [x] => by simp [mergePairs]
  | b :: a :: rest => by
    have ih := mergePairs_carries_len hp rest
    simp only [mergePairs, List.length_cons]
    omega

theorem mergeLevelF_carries_len {D : Type} [DecidableEq D] (hp : D → D → D)
    (l : List D) : (mergeLevelF hp l).carries.length = l.length / 2 := by
  unfold mergeLevelF
  rw [mergePairs_carries_len, List.length_reverse]

theorem runMergeAux_replicate_top {D : Type} [DecidableEq D] (hp : D → D → D) :
    ∀ (k : Nat) (carry : List D),
      (runMergeAux hp (List.replicate k []) carry).top.length
        = carry.length / 2 ^ k
  | 0, carry => by simp [runMergeAux]
  | k + 1, carry => by
    rw [List.replicate_succ]
    simp only [runMergeAux, List.nil_append]
    rw [runMergeAux_replicate_top hp k, mergeLevelF_carries_len,
      Nat.div_div_eq_div_mul, pow_succ, Nat.mul_comm]

theorem newRoots_all_iff {D : Type} [DecidableEq D] (m : MergeOut D) :
    ((newRootsOf m).all fun b => decide (b.length ≤ 1)) = true
      ↔ m.top.length ≤ 1 := by
  unfold newRootsOf
  rw [List.all_append, Bool.and_eq_true]
  constructor
  · rintro ⟨_, h2⟩
    by_cases ht : m.top.isEmpty
    · rw [List.isEmpty_iff] at ht
      simp [ht]
    · rw [if_neg ht] at h2
      simpa using h2
  · intro h
    constructor
    · rw [List.all_eq_true]
      intro b hb
      rw [List.mem_map] at hb
      obtain ⟨o, _, rfl⟩ := hb
      cases o <;> simp
    · by_cases ht : m.top.isEmpty
      · rw [if_pos ht]; rfl
      · rw [if_neg ht]
        simpa using h

end Utreexo

/-- C2 (amended): for a fresh forest `Forest::new(c)` with `c ≥ 1`, a single
batch of pure insertions succeeds iff its post-state population (= number of
inserted leaves) is at most `2^(c+1) − 1`; it fails (Overflow) iff the
population reaches `2^(c+1)`, not `2^c` as claimed.  (After the first commit
the roots vector is resized, so `capacity` does not bound later batches
either; the boundary is determined by the current roots length.) -/
theorem c2_amended {D : Type} [DecidableEq D] (hp : D → D → D) (c : Nat)
    (hc : 1 ≤ c) (ins : List D) :
    (updateF hp (List.replicate c none) ins []).isSome = true
      ↔ ins.length < 2 ^ (c + 1) := by
  obtain ⟨c', rfl⟩ : ∃ c', c = c' + 1 := ⟨c - 1, by omega⟩
  unfold updateF updateS
  have h0 : applyDeletions hp (List.replicate (c' + 1) (none : Option D)) []
      (bucketsInit (List.replicate (c' + 1) none))
      = some (bucketsInit (List.replicate (c' + 1) none)) := rfl
  rw [h0]
  dsimp only
  have h1 : bucketsInit (List.replicate (c' + 1) (none : Option D))
      = List.replicate (c' + 1) [] := by
    unfold bucketsInit
    rw [List.map_replicate]
    rfl
  have h2 : stageIns (List.replicate (c' + 1) ([] : List D)) ins
      = ins :: List.replicate c' [] := by
    rw [List.replicate_succ]
    unfold stageIns
    simp
  rw [h1, h2]
  have h3 : (runMergeAux hp (ins :: List.replicate c' []) []).top.length
      = ins.length / 2 ^ (c' + 1) := by
    simp only [runMergeAux]
    rw [runMergeAux_replicate_top hp c', mergeLevelF_carries_len]
    simp only [List.append_nil]
    rw [Nat.div_div_eq_div_mul, pow_succ, Nat.mul_comm]
  have h2pos : 0 < 2 ^ (c' + 1) := Nat.pos_pow_of_pos _ (by omega)
  have hiff : (runMergeAux hp (ins :: List.replicate c' []) []).top.length ≤ 1
      ↔ ins.length < 2 ^ (c' + 1 + 1) := by
    rw [h3]
    constructor
    · intro hle
      have : ins.length / 2 ^ (c' + 1) < 2 := by omega
      rw [Nat.div_lt_iff_lt_mul h2pos] at this
      calc ins.length < 2 * 2 ^ (c' + 1) := by omega
        _ = 2 ^ (c' + 1 + 1) := by rw [pow_succ]; omega
    · intro hlt
      have hm : ins.length < 2 * 2 ^ (c' + 1) := by
        calc ins.length < 2 ^ (c' + 1 + 1) := hlt
          _ = 2 * 2 ^ (c' + 1) := by rw [pow_succ]; omega
      have hq : ins.length / 2 ^ (c' + 1) < 2 :=
        (Nat.div_lt_iff_lt_mul h2pos).mpr (by omega)
      omega
  by_cases hall : ((newRootsOf (runMergeAux hp (ins :: List.replicate c' []) [])).all
      fun b => decide (b.length ≤ 1)) = true
  · rw [if_pos hall]
    simp only [Option.isSome_some, true_iff]
    exact hiff.mp ((newRoots_all_iff _).mp hall)
  · rw [if_neg hall]
    simp only [Option.isSome_none]
    constructor
    · intro hfalse
      exact absurd hfalse (by simp)
    · intro hlen
      exact absurd ((newRoots_all_iff _).mpr (hiff.mpr hlen)) hall

/-- C2 (witness for the amended claim): capacity 1, three insertions — the
batch succeeds and `3 < 2 ^ 2`. -/
theorem c2_witness :
    1 ≤ 1 ∧
      ((updateF pairHash (List.replicate 1 none) [1, 3, 5] []).isSome = true
        ↔ ([1, 3, 5] : List Nat).length < 2 ^ (1 + 1)) :=
  ⟨by decide, c2_amended pairHash 1 (by decide) [1, 3, 5]⟩

/-! ## C5: leaf-weight bookkeeping through `update` -/

namespace Utreexo

theorem optWeight_replicate_none {D : Type} [DecidableEq D] :
    ∀ c : Nat, optWeight (List.replicate c (none : Option D)) = 0
  | 0 => rfl
  | c + 1 => by
    rw [List.replicate_succ]
    simp [optWeight, optWeight_replicate_none c]

theorem bweight_bucketsInit {D : Type} [DecidableEq D] :
    ∀ roots : List (Option D), bweight (bucketsInit roots) = optWeight roots
  | [] => rfl
  | o :: rest => by
    have ih := bweight_bucketsInit rest
    cases o <;> simp [bucketsInit, bweight, optWeight, List.map] at * <;> omega

theorem bweight_set {D : Type} [DecidableEq D] :
    ∀ (B : List (List D)) (h : Nat) (l' : List D), h < B.length →
      bweight (B.set h l') + 2 ^ h * (B.getD h []).length
        = bweight B + 2 ^ h * l'.length
  | [], h, l' => by intro hh; simp at hh
  | b :: rest, 0, l' => by
    intro _
    simp [bweight, List.getD_cons_zero]
    omega
  | b :: rest, h + 1, l' => by
    intro hh
    have ih := bweight_set rest h l' (by simpa using Nat.lt_of_succ_lt_succ hh)
    simp only [List.set_cons_succ, bweight, List.getD_cons_succ, pow_succ]
    ring_nf
    ring_nf at ih
    omega

theorem pushAt_eq_of_lt {D : Type} [DecidableEq D] (B : List (List D))
    (h : Nat) (x : D) (hh : h < B.length) :
    pushAt B h x = B.set h ((B.getD h []) ++ [x]) := by
  unfold pushAt
  have h0 : h - B.length = 0 := by omega
  rw [h0]
  simp only [List.replicate_zero, List.append_nil]
  rw [if_pos hh]

theorem bweight_pushAt {D : Type} [DecidableEq D] (B : List (List D))
    (h : Nat) (x : D) (hh : h < B.length) :
    bweight (pushAt B h x) = bweight B + 2 ^ h := by
  rw [pushAt_eq_of_lt B h x hh]
  have := bweight_set B h ((B.getD h []) ++ [x]) hh
  rw [List.length_append] at this
  simp only [List.length_singleton] at this
  have hmul : 2 ^ h * ((B.getD h []).length + 1)
      = 2 ^ h * (B.getD h []).length + 2 ^ h := by ring
  omega

theorem findRoot_lt {D : Type} [DecidableEq D] (hash : D) :
    ∀ (l : List D) (idx : Nat), findRoot hash l = some idx → idx < l.length
  | [], idx => by intro h; cases h
  | r :: rest, idx => by
    intro h
    unfold findRoot at h
    by_cases he : hash = r
    · rw [if_pos he] at h
      cases h
      simp only [List.length_cons]
      omega
    · rw [if_neg he] at h
      cases hf : findRoot hash rest with
      | none => rw [hf] at h; cases h
      | some j =>
        rw [hf] at h
        simp only [Option.map_some', Option.some.injEq] at h
        have := findRoot_lt hash rest j hf
        simp only [List.length_cons]
        omega

theorem deleteWalk_weight {D : Type} [DecidableEq D] (hp : D → D → D)
    (roots : List (Option D)) (steps : List (ProofStep D)) :
    ∀ (fuel : Nat) (B : List (List D)) (height : Nat) (hash : D)
      (B' : List (List D)),
      roots.length ≤ B.length → steps.length < roots.length →
      deleteWalk hp roots steps fuel B height hash = some B' →
      bweight B' + 2 ^ height = bweight B ∧ B'.length = B.length
  | 0, B, height, hash, B' => by intro _ _ h; cases h
  | fuel + 1, B, height, hash, B' => by
    intro hlen hst h
    rw [deleteWalk] at h
    cases hf : (if height < B.length then findRoot hash (B.getD height []) else none) with
    | some idx =>
      rw [hf] at h
      dsimp only at h
      have hb : height < B.length := by
        by_contra hc
        rw [if_neg hc] at hf
        cases hf
      have hfr : findRoot hash (B.getD height []) = some idx := by
        rw [if_pos hb] at hf
        exact hf
      have hidx := findRoot_lt hash _ idx hfr
      by_cases hok : roots.getD (height + (steps.drop height).length) none
          = some ((steps.drop height).foldl (parent hp) hash)
      · rw [if_pos hok] at h
        cases h
        constructor
        · have hset := bweight_set B height ((B.getD height []).eraseIdx idx) hb
          rw [List.length_eraseIdx, if_pos hidx] at hset
          have hlen1 : 1 ≤ (B.getD height []).length := by omega
          have hmul : 2 ^ height * ((B.getD height []).length - 1) + 2 ^ height
              = 2 ^ height * (B.getD height []).length := by
            have : (B.getD height []).length - 1 + 1 = (B.getD height []).length := by
              omega
            calc 2 ^ height * ((B.getD height []).length - 1) + 2 ^ height
                = 2 ^ height * (((B.getD height []).length - 1) + 1) := by ring
              _ = 2 ^ height * (B.getD height []).length := by rw [this]
          omega
        · simp
      · rw [if_neg hok] at h
        cases h
    | none =>
      rw [hf] at h
      dsimp only at h
      by_cases hlt : height < steps.length
      · rw [dif_pos hlt] at h
        have hb : height < B.length := by omega
        have hpa := bweight_pushAt B height (steps.get ⟨height, hlt⟩).hash hb
        have hpl : (pushAt B height (steps.get ⟨height, hlt⟩).hash).length
            = B.length := by
          rw [pushAt_eq_of_lt B height _ hb]
          simp
        have ih := deleteWalk_weight hp roots steps fuel
          (pushAt B height (steps.get ⟨height, hlt⟩).hash) (height + 1)
          (parent hp hash (steps.get ⟨height, hlt⟩)) B'
          (by omega) hst h
        refine ⟨?_, by omega⟩
        rw [hpl] at ih
        have h2 : (2 : Nat) ^ (height + 1) = 2 ^ height + 2 ^ height := by
          rw [pow_succ]
          omega
        omega
      · rw [dif_neg hlt] at h
        cases h

theorem deleteF_weight {D : Type} [DecidableEq D] (hp : D → D → D)
    (roots : List (Option D)) (p : Proof D) (B B' : List (List D))
    (hlen : roots.length ≤ B.length)
    (h : deleteF hp roots p B = some B') :
    bweight B' + 1 = bweight B ∧ B'.length = B.length := by
  unfold deleteF at h
  by_cases hpre : deletePre roots p = true
  · rw [if_pos hpre] at h
    cases h
  · rw [if_neg hpre] at h
    unfold deletePre at hpre
    simp only [Bool.or_eq_true, decide_eq_true_eq, Option.isNone_iff_eq_none,
      not_or] at hpre
    have hn : p.steps.length < roots.length := by
      by_contra hc
      exact hpre.2 (List.getElem?_eq_none (by omega))
    have := deleteWalk_weight hp roots p.steps (p.steps.length + 1) B 0
      p.leaf B' hlen hn h
    simpa using this

theorem applyDeletions_weight {D : Type} [DecidableEq D] (hp : D → D → D)
    (roots : List (Option D)) :
    ∀ (dels : List (Proof D)) (B B' : List (List D)),
      roots.length ≤ B.length →
      applyDeletions hp roots dels B = some B' →
      bweight B' + dels.length = bweight B ∧ roots.length ≤ B'.length
  | [], B, B' => by
    intro hlen h
    cases h
    exact ⟨by simp, hlen⟩
  | p :: rest, B, B' => by
    intro hlen h
    unfold applyDeletions at h
    cases hd : deleteF hp roots p B with
    | none => rw [hd] at h; cases h
    | some B1 =>
      rw [hd] at h
      dsimp only at h
      have h1 := deleteF_weight hp roots p B B1 hlen hd
      have h2 := applyDeletions_weight hp roots rest B1 B' (by omega) h
      refine ⟨by simp only [List.length_cons]; omega, h2.2⟩

theorem bweight_stageIns {D : Type} [DecidableEq D] (B1 : List (List D))
    (ins : List D) : bweight (stageIns B1 ins) = bweight B1 + ins.length := by
  cases B1 with
  | nil => simp [stageIns, bweight]
  | cons b r =>
    simp [stageIns, bweight, List.length_append]
    omega

theorem mergePairs_weight {D : Type} [DecidableEq D] (hp : D → D → D) :
    ∀ l : List D,
      l.length = (if (mergePairs hp l).leftover.isSome then 1 else 0)
        + 2 * (mergePairs hp l).carries.length
  | [] => rfl
  | [x] => rfl
  | b :: a :: rest => by
    have ih := mergePairs_weight hp rest
    simp only [mergePairs, List.length_cons]
    omega

theorem mergeLevelF_weight {D : Type} [DecidableEq D] (hp : D → D → D)
    (l : List D) :
    l.length = (if (mergeLevelF hp l).leftover.isSome then 1 else 0)
      + 2 * (mergeLevelF hp l).carries.length := by
  unfold mergeLevelF
  rw [← List.length_reverse]
  exact mergePairs_weight hp l.reverse

theorem runMergeAux_leftovers_len {D : Type} [DecidableEq D] (hp : D → D → D) :
    ∀ (bs : List (List D)) (carry : List D),
      (runMergeAux hp bs carry).leftovers.length = bs.length
  | [], carry => rfl
  | b :: rest, carry => by
    simp only [runMergeAux, List.length_cons]
    rw [runMergeAux_leftovers_len hp rest]

theorem runMergeAux_weight {D : Type} [DecidableEq D] (hp : D → D → D) :
    ∀ (bs : List (List D)) (carry : List D),
      optWeight (runMergeAux hp bs carry).leftovers
        + 2 ^ bs.length * (runMergeAux hp bs carry).top.length
        = bweight bs + carry.length
  | [], carry => by simp [runMergeAux, optWeight, bweight]
  | b :: rest, carry => by
    have ihm := mergeLevelF_weight hp (b ++ carry)
    have ih := runMergeAux_weight hp rest (mergeLevelF hp (b ++ carry)).carries
    simp only [runMergeAux, optWeight, bweight, List.length_cons,
      List.length_append, pow_succ] at *
    ring_nf
    ring_nf at ih
    omega

theorem bweight_append {D : Type} [DecidableEq D] :
    ∀ A B : List (List D),
      bweight (A ++ B) = bweight A + 2 ^ A.length * bweight B
  | [], B => by simp [bweight]
  | a :: A', B => by
    have ih := bweight_append A' B
    simp only [List.cons_append, bweight, List.length_cons, pow_succ,
      List.append_eq] at ih ⊢
    rw [ih]
    ring

theorem bweight_map_toList {D : Type} [DecidableEq D] :
    ∀ los : List (Option D), bweight (los.map Option.toList) = optWeight los
  | [] => rfl
  | o :: rest => by
    have ih := bweight_map_toList rest
    cases o <;> simp [bweight, optWeight, Option.toList] at * <;> omega

theorem bweight_newRootsOf {D : Type} [DecidableEq D] (m : MergeOut D) :
    bweight (newRootsOf m)
      = optWeight m.leftovers + 2 ^ m.leftovers.length * m.top.length := by
  unfold newRootsOf
  rw [bweight_append, bweight_map_toList, List.length_map]
  by_cases ht : m.top.isEmpty
  · rw [if_pos ht]
    rw [List.isEmpty_iff] at ht
    simp [ht, bweight]
  · rw [if_neg ht]
    simp [bweight]

theorem optWeight_map_headq {D : Type} [DecidableEq D] :
    ∀ l : List (List D), (∀ b ∈ l, b.length ≤ 1) →
      optWeight (l.map (fun b => b.head?)) = bweight l
  | [], _ => rfl
  | b :: rest, hall => by
    have ih := optWeight_map_headq rest (fun x hx => hall x (by simp [hx]))
    cases b with
    | nil => simp [optWeight, bweight] at *; omega
    | cons x xs =>
      have hb := hall (x :: xs) (by simp)
      simp only [List.length_cons] at hb
      have hxs : xs = [] := by
        cases xs with
        | nil => rfl
        | cons y ys => simp at hb
      subst hxs
      simp [optWeight, bweight] at *
      omega

theorem bweight_zero_of_all_empty {D : Type} [DecidableEq D] :
    ∀ l : List (List D), (∀ b ∈ l, b = []) → bweight l = 0
  | [], _ => rfl
  | b :: rest, h => by
    have hb := h b (by simp)
    have ih := bweight_zero_of_all_empty rest (fun x hx => h x (by simp [hx]))
    simp [bweight, hb, ih]

theorem optWeight_commitRoots {D : Type} [DecidableEq D] (NB : List (List D))
    (hall : (NB.all fun b => decide (b.length ≤ 1)) = true) :
    optWeight (commitRoots NB) = bweight NB := by
  have hall' : ∀ b ∈ NB, b.length ≤ 1 := by
    intro b hb
    have := (List.all_eq_true.mp hall) b hb
    simpa using this
  have hdrop : ∀ b ∈ NB.drop (NB.length - countTrailingEmpty NB), b = [] := by
    intro b hb
    rw [List.mem_iff_getElem] at hb
    obtain ⟨j, hj, hget⟩ := hb
    rw [List.getElem_drop] at hget
    have hjlen : NB.length - countTrailingEmpty NB + j < NB.length := by
      rw [List.length_drop] at hj
      omega
    have := trailing_bucket_empty NB (NB.length - countTrailingEmpty NB + j)
      (by omega) hjlen
    rw [List.getD_eq_getElem?_getD, List.getElem?_eq_getElem hjlen] at this
    simp only [Option.getD_some] at this
    rw [← hget, this]
  have hsplit : bweight NB
      = bweight (NB.take (NB.length - countTrailingEmpty NB))
        + 2 ^ (NB.take (NB.length - countTrailingEmpty NB)).length
          * bweight (NB.drop (NB.length - countTrailingEmpty NB)) := by
    conv_lhs => rw [← List.take_append_drop (NB.length - countTrailingEmpty NB) NB]
    exact bweight_append _ _
  rw [bweight_zero_of_all_empty _ hdrop] at hsplit
  unfold commitRoots
  rw [optWeight_map_headq _
    (fun b hb => hall' b (List.mem_of_mem_take hb))]
  omega

theorem updateF_weight {D : Type} [DecidableEq D] (hp : D → D → D)
    (roots : List (Option D)) (ins : List D) (dels : List (Proof D))
    (R' : List (Option D)) (es : List (D × ProofStep D))
    (h : updateF hp roots ins dels = some (R', es)) :
    optWeight R' + dels.length = optWeight roots + ins.length := by
  unfold updateF updateS at h
  cases happ : applyDeletions hp roots dels (bucketsInit roots) with
  | none => rw [happ] at h; exact absurd h (by simp)
  | some B1 =>
    rw [happ] at h
    dsimp only at h
    by_cases hall : (newRootsOf (runMergeAux hp (stageIns B1 ins) [])).all
        (fun b => decide (b.length ≤ 1)) = true
    · rw [if_pos hall] at h
      simp only [Option.some.injEq, Prod.mk.injEq] at h
      obtain ⟨hR, _⟩ := h
      have hblen : roots.length ≤ (bucketsInit roots).length := by
        unfold bucketsInit
        rw [List.length_map]
      have hAD := applyDeletions_weight hp roots dels (bucketsInit roots) B1
        hblen happ
      have hB0 := bweight_bucketsInit roots
      have hSt := bweight_stageIns B1 ins
      have hRM := runMergeAux_weight hp (stageIns B1 ins) []
      have hlos := runMergeAux_leftovers_len hp (stageIns B1 ins) []
      have hNB := bweight_newRootsOf (runMergeAux hp (stageIns B1 ins) [])
      have hCW := optWeight_commitRoots
        (newRootsOf (runMergeAux hp (stageIns B1 ins) [])) hall
      rw [← hR]
      rw [hlos] at hNB
      simp only [List.length_nil] at hRM
      omega
    · rw [if_neg hall] at h
      exact absurd h (by simp)

theorem optWeight_testBit {D : Type} [DecidableEq D] :
    ∀ (roots : List (Option D)) (k : Nat),
      (roots.getD k none).isSome = (optWeight roots).testBit k
  | [], k => by
    simp [optWeight, Nat.zero_testBit]
  | o :: rest, 0 => by
    rw [List.getD_cons_zero, Nat.testBit_zero]
    cases o with
    | none => simp [optWeight]
    | some v => simp [optWeight]
  | o :: rest, k + 1 => by
    rw [List.getD_cons_succ, Nat.testBit_succ]
    have hdiv : ((if o.isSome then 1 else 0) + 2 * optWeight rest) / 2
        = optWeight rest := by
      cases o with
      | none => simp
      | some v => simp; omega
    show _ = (optWeight (o :: rest) / 2).testBit k
    simp only [optWeight] at hdiv ⊢
    rw [hdiv]
    exact optWeight_testBit rest k

theorem reachable_weight {D : Type} [DecidableEq D] (hp : D → D → D)
    {n : Nat} {roots : List (Option D)} (h : Reachable hp n roots) :
    optWeight roots = n := by
  induction h with
  | base c => exact optWeight_replicate_none c
  | step hr hupd ih =>
    have := updateF_weight hp _ _ _ _ _ hupd
    omega

end Utreexo

/-- C5: after every sequence of successful updates starting from a fresh
forest, `roots[h]` holds a present digest iff bit `h` of the current leaf
population (total insertions minus total deletions across the successful
batches) is 1. -/
theorem c5_population_bitmap {D : Type} [DecidableEq D] (hp : D → D → D)
    {n : Nat} {roots : List (Option D)} (h : Reachable hp n roots) (k : Nat) :
    (roots.getD k none).isSome = n.testBit k := by
  rw [← reachable_weight hp h]
  exact optWeight_testBit roots k

/-- C5 (witness): the forest reached by `new(1)` followed by `update([1,3],[])`
has its only root at height 1, and bit 1 of population 2 is set. -/
theorem c5_witness :
    (([none, some 22] : List (Option Nat)).getD 1 none).isSome
      = (0 + 2 - 0 : Nat).testBit 1 :=
  c5_population_bitmap pairHash
    (Reachable.step (Reachable.base 1)
      (show updateF pairHash (List.replicate 1 none) [1, 3] []
          = some ([none, some 22],
            [(1, ⟨3, false⟩), (3, ⟨1, true⟩)]) by decide)) 1

/-! ## C1: correctness of `Update::prove` under height-distinct node values -/

namespace Utreexo

theorem lookupLast_mem {D : Type} [DecidableEq D] :
    ∀ (es : List (D × ProofStep D)) (k : D) (s : ProofStep D),
      lookupLast es k = some s → (k, s) ∈ es
  | [], k, s => by intro h; cases h
  | e :: rest, k, s => by
    intro h
    simp only [lookupLast] at h
    cases hr : lookupLast rest k with
    | some s' =>
      rw [hr] at h
      dsimp only at h
      have hss : s' = s := by injection h
      subst hss
      exact List.mem_cons_of_mem e (lookupLast_mem rest k s' hr)
    | none =>
      rw [hr] at h
      dsimp only at h
      by_cases hk : k = e.1
      · rw [if_pos hk] at h
        cases h
        rw [hk]
        exact List.mem_cons_self _ _
      · rw [if_neg hk] at h
        cases h

theorem lookupLast_eq_none {D : Type} [DecidableEq D]
    (es : List (D × ProofStep D)) (k : D)
    (h : ∀ s : ProofStep D, (k, s) ∉ es) : lookupLast es k = none := by
  cases hl : lookupLast es k with
  | none => rfl
  | some s => exact absurd (lookupLast_mem es k s hl) (h s)

theorem lookupLast_append {D : Type} [DecidableEq D] :
    ∀ (xs ys : List (D × ProofStep D)) (k : D),
      lookupLast (xs ++ ys) k
        = match lookupLast ys k with
          | some s => some s
          | none => lookupLast xs k
  | [], ys, k => by
    cases hl : lookupLast ys k <;> simp [hl, lookupLast]
  | e :: xs', ys, k => by
    have ih := lookupLast_append xs' ys k
    simp only [List.cons_append, lookupLast, List.append_eq] at ih ⊢
    rw [ih]
    cases hl : lookupLast ys k <;> dsimp only

theorem mergePairs_edges_key_mem {D : Type} [DecidableEq D] (hp : D → D → D) :
    ∀ (l : List D) (k : D) (s : ProofStep D),
      (k, s) ∈ (mergePairs hp l).edges → k ∈ l
  | [], k, s => by intro h; cases h
  | [x], k, s => by intro h; cases h
  | b :: a :: rest, k, s => by
    intro h
    simp only [mergePairs, List.mem_cons, Prod.mk.injEq] at h
    rcases h with ⟨rfl, _⟩ | ⟨rfl, _⟩ | h
    · simp
    · simp
    · have := mergePairs_edges_key_mem hp rest k s h
      simp [this]

theorem mergePairs_lookup_parent {D : Type} [DecidableEq D] (hp : D → D → D) :
    ∀ (l : List D) (v : D) (s : ProofStep D),
      lookupLast (mergePairs hp l).edges v = some s →
      parent hp v s ∈ (mergePairs hp l).carries
  | [], v, s => by intro h; cases h
  | [x], v, s => by intro h; cases h
  | b :: a :: rest, v, s => by
    intro h
    simp only [mergePairs, lookupLast] at h ⊢
    cases hE : lookupLast (mergePairs hp rest).edges v with
    | some s' =>
      rw [hE] at h
      dsimp only at h
      have hss : s' = s := by injection h
      subst hss
      exact List.mem_cons_of_mem _ (mergePairs_lookup_parent hp rest v s' hE)
    | none =>
      rw [hE] at h
      dsimp only at h
      by_cases hvb : v = b
      · rw [if_pos hvb] at h
        dsimp only at h
        cases h
        subst hvb
        simp [parent]
      · rw [if_neg hvb] at h
        dsimp only at h
        by_cases hva : v = a
        · rw [if_pos hva] at h
          cases h
          subst hva
          simp [parent]
        · rw [if_neg hva] at h
          cases h

theorem mergePairs_leftover_of_none {D : Type} [DecidableEq D] (hp : D → D → D) :
    ∀ (l : List D) (v : D), v ∈ l →
      lookupLast (mergePairs hp l).edges v = none →
      (mergePairs hp l).leftover = some v
  | [], v => by intro h _; cases h
  | [x], v => by
    intro hv _
    simp only [List.mem_singleton] at hv
    rw [hv]
    rfl
  | b :: a :: rest, v => by
    intro hv h
    simp only [mergePairs, lookupLast] at h ⊢
    cases hE : lookupLast (mergePairs hp rest).edges v with
    | some s' => rw [hE] at h; dsimp only at h; cases h
    | none =>
      rw [hE] at h
      dsimp only at h
      by_cases hvb : v = b
      · rw [if_pos hvb] at h; cases h
      · rw [if_neg hvb] at h
        by_cases hva : v = a
        · rw [if_pos hva] at h; cases h
        · rw [if_neg hva] at h
          have hv' : v ∈ rest := by
            simp only [List.mem_cons] at hv
            rcases hv with rfl | rfl | hv
            · exact absurd rfl hvb
            · exact absurd rfl hva
            · exact hv
          exact mergePairs_leftover_of_none hp rest v hv' hE

theorem mergePairs_edges_len {D : Type} [DecidableEq D] (hp : D → D → D) :
    ∀ l : List D,
      (mergePairs hp l).edges.length = 2 * (mergePairs hp l).carries.length
  | [] => rfl
  | [x] => rfl
  | b :: a :: rest => by
    have ih := mergePairs_edges_len hp rest
    simp only [mergePairs, List.length_cons]
    omega

theorem mergeLevelF_edges_key_mem {D : Type} [DecidableEq D] (hp : D → D → D)
    (l : List D) (k : D) (s : ProofStep D)
    (h : (k, s) ∈ (mergeLevelF hp l).edges) : k ∈ l :=
  List.mem_reverse.mp (mergePairs_edges_key_mem hp l.reverse k s h)

theorem mergeLevelF_lookup_parent {D : Type} [DecidableEq D] (hp : D → D → D)
    (l : List D) (v : D) (s : ProofStep D)
    (h : lookupLast (mergeLevelF hp l).edges v = some s) :
    parent hp v s ∈ (mergeLevelF hp l).carries :=
  mergePairs_lookup_parent hp l.reverse v s h

theorem mergeLevelF_leftover_of_none {D : Type} [DecidableEq D] (hp : D → D → D)
    (l : List D) (v : D) (hv : v ∈ l)
    (h : lookupLast (mergeLevelF hp l).edges v = none) :
    (mergeLevelF hp l).leftover = some v :=
  mergePairs_leftover_of_none hp l.reverse v (List.mem_reverse.mpr hv) h

theorem mergeLevelF_edges_len {D : Type} [DecidableEq D] (hp : D → D → D)
    (l : List D) :
    (mergeLevelF hp l).edges.length = 2 * (mergeLevelF hp l).carries.length :=
  mergePairs_edges_len hp l.reverse

theorem runMergeAux_edges_key_mem {D : Type} [DecidableEq D] (hp : D → D → D) :
    ∀ (bs : List (List D)) (carry : List D) (k : D) (s : ProofStep D),
      (k, s) ∈ (runMergeAux hp bs carry).edges →
      ∃ lvl ∈ levelsOf hp bs carry, k ∈ lvl
  | [], carry, k, s => by intro h; cases h
  | b :: rest, carry, k, s => by
    intro h
    simp only [runMergeAux] at h
    rw [List.mem_append] at h
    cases h with
    | inl h1 =>
      refine ⟨b ++ carry, ?_, mergeLevelF_edges_key_mem hp _ k s h1⟩
      simp [levelsOf]
    | inr h2 =>
      obtain ⟨lvl, hl, hk⟩ := runMergeAux_edges_key_mem hp rest
        (mergeLevelF hp (b ++ carry)).carries k s h2
      refine ⟨lvl, ?_, hk⟩
      simp only [levelsOf, List.mem_cons]
      exact Or.inr hl

theorem pairwiseDisjB_cons {D : Type} [DecidableEq D] {l : List D}
    {ls : List (List D)} (h : pairwiseDisjB (l :: ls) = true) :
    (∀ x ∈ l, ∀ lvl ∈ ls, x ∉ lvl) ∧ pairwiseDisjB ls = true := by
  unfold pairwiseDisjB at h
  rw [Bool.and_eq_true] at h
  refine ⟨?_, h.2⟩
  intro x hx lvl hlvl
  have h1 := (List.all_eq_true.mp h.1) lvl hlvl
  unfold disjointB at h1
  have h2 := (List.all_eq_true.mp h1) x hx
  simpa using h2

end Utreexo

namespace Utreexo

/-- Core correctness of the edge walk: under pairwise disjointness of the
per-level node values (`levelsOf`), every entry `v` of the first processed
bucket walks — through the final edge list, most-recent-binding-first — to a
committed leftover or to the top carry bucket, with the number of hops equal
to the relative height of the landing bucket, and the fold of the collected
steps equal to the landing digest.  The walk result is stable under
prepending edges whose keys avoid every level, and under any sufficient
fuel. -/
theorem walkW {D : Type} [DecidableEq D] (hp : D → D → D) :
    ∀ (bs : List (List D)) (carry : List D),
      pairwiseDisjB (levelsOf hp bs carry) = true →
      ∀ v, v ∈ (match bs with | [] => carry | b :: _ => b ++ carry) →
      ∃ steps : List (ProofStep D),
        2 * steps.length ≤ (runMergeAux hp bs carry).edges.length ∧
        (∀ (pre : List (D × ProofStep D)) (fuel : Nat),
            (∀ (k : D) (s : ProofStep D), (k, s) ∈ pre →
              ∀ lvl ∈ levelsOf hp bs carry, k ∉ lvl) →
            steps.length + 1 ≤ fuel →
            proveLoop hp (pre ++ (runMergeAux hp bs carry).edges) fuel v
              = steps) ∧
        ((∃ hn : steps.length < (runMergeAux hp bs carry).leftovers.length,
            (runMergeAux hp bs carry).leftovers.get ⟨steps.length, hn⟩
              = some (steps.foldl (parent hp) v)) ∨
          (steps.length = (runMergeAux hp bs carry).leftovers.length ∧
            steps.foldl (parent hp) v ∈ (runMergeAux hp bs carry).top))
  | [], carry => by
    intro hdisj v hv
    refine ⟨[], by simp [runMergeAux], ?_, ?_⟩
    · intro pre fuel hpre hfuel
      obtain ⟨f, rfl⟩ : ∃ f, fuel = f + 1 := ⟨fuel - 1, by omega⟩
      rw [proveLoop]
      have hnone : lookupLast (pre ++ (runMergeAux hp ([] : List (List D)) carry).edges) v
          = none := by
        apply lookupLast_eq_none
        intro s hs
        simp only [runMergeAux, List.append_nil] at hs
        exact hpre v s hs carry (by simp [levelsOf]) hv
      rw [hnone]
    · right
      exact ⟨rfl, hv⟩
  | b :: rest, carry => by
    intro hdisj v hv
    have hlv : levelsOf hp (b :: rest) carry
        = (b ++ carry) :: levelsOf hp rest (mergeLevelF hp (b ++ carry)).carries :=
      rfl
    rw [hlv] at hdisj
    obtain ⟨hdis1, hdis2⟩ := pairwiseDisjB_cons hdisj
    have hrm : runMergeAux hp (b :: rest) carry
        = ⟨(mergeLevelF hp (b ++ carry)).leftover
            :: (runMergeAux hp rest (mergeLevelF hp (b ++ carry)).carries).leftovers,
           (runMergeAux hp rest (mergeLevelF hp (b ++ carry)).carries).top,
           (mergeLevelF hp (b ++ carry)).edges
            ++ (runMergeAux hp rest (mergeLevelF hp (b ++ carry)).carries).edges⟩ :=
      rfl
    -- keys of the upper edge list never collide with values of this level
    have hvup : lookupLast
        (runMergeAux hp rest (mergeLevelF hp (b ++ carry)).carries).edges v
        = none := by
      apply lookupLast_eq_none
      intro s hs
      obtain ⟨lvl, hl, hk⟩ := runMergeAux_edges_key_mem hp rest _ v s hs
      exact absurd hk (hdis1 v hv lvl hl)
    cases hcase : lookupLast (mergeLevelF hp (b ++ carry)).edges v with
    | some step =>
      have hpar := mergeLevelF_lookup_parent hp (b ++ carry) v step hcase
      have hvmem : parent hp v step
          ∈ (match rest with
             | [] => (mergeLevelF hp (b ++ carry)).carries
             | b' :: _ => b' ++ (mergeLevelF hp (b ++ carry)).carries) := by
        cases rest with
        | nil => exact hpar
        | cons b' rs => exact List.mem_append_right b' hpar
      obtain ⟨steps', hbound', hwalk', hroot'⟩ :=
        walkW hp rest (mergeLevelF hp (b ++ carry)).carries hdis2
          (parent hp v step) hvmem
      have hlv2 : (mergeLevelF hp (b ++ carry)).edges.length
          = 2 * (mergeLevelF hp (b ++ carry)).carries.length :=
        mergeLevelF_edges_len hp (b ++ carry)
      have hcar1 : 1 ≤ (mergeLevelF hp (b ++ carry)).carries.length :=
        List.length_pos.mpr (List.ne_nil_of_mem hpar)
      refine ⟨step :: steps', ?_, ?_, ?_⟩
      · rw [hrm]
        simp only [List.length_cons, List.length_append]
        omega
      · intro pre fuel hpre hfuel
        obtain ⟨f, rfl⟩ : ∃ f, fuel = f + 1 := ⟨fuel - 1, by omega⟩
        rw [hrm]
        dsimp only
        rw [proveLoop]
        have hlk : lookupLast
            (pre ++ ((mergeLevelF hp (b ++ carry)).edges
              ++ (runMergeAux hp rest (mergeLevelF hp (b ++ carry)).carries).edges)) v
            = some step := by
          rw [lookupLast_append, lookupLast_append, hvup]
          dsimp only
          rw [hcase]
        rw [hlk]
        dsimp only
        rw [show pre ++ ((mergeLevelF hp (b ++ carry)).edges
              ++ (runMergeAux hp rest (mergeLevelF hp (b ++ carry)).carries).edges)
            = (pre ++ (mergeLevelF hp (b ++ carry)).edges)
              ++ (runMergeAux hp rest (mergeLevelF hp (b ++ carry)).carries).edges
          from (List.append_assoc _ _ _).symm]
        rw [hwalk' (pre ++ (mergeLevelF hp (b ++ carry)).edges) f ?_ (by
          simp only [List.length_cons] at hfuel
          omega)]
        intro k s hks lvl hlvl
        rw [List.mem_append] at hks
        cases hks with
        | inl hin => exact hpre k s hin lvl (List.mem_cons_of_mem _ hlvl)
        | inr hin =>
          exact hdis1 k (mergeLevelF_edges_key_mem hp _ k s hin) lvl hlvl
      · rw [hrm]
        simp only [List.length_cons, List.foldl_cons]
        cases hroot' with
        | inl hl =>
          obtain ⟨hn, hget⟩ := hl
          left
          refine ⟨by omega, ?_⟩
          simpa using hget
        | inr hr =>
          obtain ⟨heq, hmem⟩ := hr
          right
          constructor
          · omega
          · exact hmem
    | none =>
      have hlo := mergeLevelF_leftover_of_none hp (b ++ carry) v hv hcase
      refine ⟨[], by simp, ?_, ?_⟩
      · intro pre fuel hpre hfuel
        obtain ⟨f, rfl⟩ : ∃ f, fuel = f + 1 := ⟨fuel - 1, by omega⟩
        rw [hrm]
        dsimp only
        rw [proveLoop]
        have hlk : lookupLast
            (pre ++ ((mergeLevelF hp (b ++ carry)).edges
              ++ (runMergeAux hp rest (mergeLevelF hp (b ++ carry)).carries).edges)) v
            = none := by
          rw [lookupLast_append, lookupLast_append, hvup]
          dsimp only
          rw [hcase]
          dsimp only
          apply lookupLast_eq_none
          intro s hs
          exact absurd hv (hpre v s hs (b ++ carry) (List.mem_cons_self _ _))
        rw [hlk]
      · left
        rw [hrm]
        refine ⟨by simp, ?_⟩
        simpa using hlo

end Utreexo

namespace Utreexo

theorem singleton_of_mem_len_le_one {D : Type} {r : D} :
    ∀ {l : List D}, r ∈ l → l.length ≤ 1 → l = [r]
  | [], h, _ => absurd h (List.not_mem_nil r)
  | [y], h, _ => by
    simp only [List.mem_singleton] at h
    rw [h]
  | y :: z :: t, _, hl => by
    simp only [List.length_cons] at hl
    omega

theorem newRootsOf_getD_left {D : Type} [DecidableEq D] (m : MergeOut D)
    (n : Nat) (hn : n < m.leftovers.length) :
    (newRootsOf m).getD n [] = (m.leftovers.getD n none).toList := by
  unfold newRootsOf
  rw [List.getD_eq_getElem?_getD, List.getElem?_append,
    if_pos (by rw [List.length_map]; exact hn)]
  rw [List.getElem?_map, List.getElem?_eq_getElem hn]
  rw [List.getD_eq_getElem?_getD, List.getElem?_eq_getElem hn]
  rfl

theorem newRootsOf_getD_top {D : Type} [DecidableEq D] (m : MergeOut D)
    (hne : m.top ≠ []) :
    (newRootsOf m).getD m.leftovers.length [] = m.top := by
  unfold newRootsOf
  have hie : ¬(m.top.isEmpty = true) := by
    rw [List.isEmpty_iff]
    exact hne
  rw [if_neg hie]
  rw [List.getD_eq_getElem?_getD, List.getElem?_append_right
    (by rw [List.length_map])]
  rw [List.length_map, Nat.sub_self]
  rfl

theorem newRootsOf_length {D : Type} [DecidableEq D] (m : MergeOut D) :
    (newRootsOf m).length
      = m.leftovers.length + (if m.top.isEmpty then 0 else 1) := by
  unfold newRootsOf
  rw [List.length_append, List.length_map]
  by_cases ht : m.top.isEmpty
  · rw [if_pos ht, if_pos ht]
    rfl
  · rw [if_neg ht, if_neg ht]
    rfl

theorem verify_of_bucket {D : Type} [DecidableEq D] (hp : D → D → D)
    (NB : List (List D)) (x r : D) (steps : List (ProofStep D))
    (hn : steps.length < NB.length)
    (hb : NB.getD steps.length [] = [r])
    (hfold : steps.foldl (parent hp) x = r) :
    verifyF hp (commitRoots NB) ⟨steps, x⟩ = true := by
  have ht : steps.length < NB.length - countTrailingEmpty NB := by
    by_contra hc
    have := trailing_bucket_empty NB steps.length (by omega) hn
    rw [hb] at this
    cases this
  have hcg := commitRoots_getElem? NB steps.length ht
  rw [hb] at hcg
  unfold verifyF
  have hlen : ¬(steps.length ≥ (commitRoots NB).length) := by
    rw [commitRoots_length]
    omega
  rw [if_neg hlen]
  dsimp only
  rw [List.getD_eq_getElem?_getD, hcg]
  simp [hfold]

end Utreexo

/-- C1 (amended): for every forest and every successful batch
`update(I, [])`, and for every leaf `x ∈ I`, `verify(u.prove(x))` returns
true against the post-update forest, PROVIDED no digest value occurs at two
different heights of the working forest during the batch (hypothesis
`pairwiseDisjB (levelsOf …)`; `c1_counterexample` shows the claim fails
without it, because the update's edge map is keyed by digest only).  With a
collision-resistant hash this hypothesis can only fail when the caller
inserts a leaf equal to an interior digest, as in the counterexample. -/
theorem c1_amended {D : Type} [DecidableEq D] (hp : D → D → D)
    (roots R' : List (Option D)) (ins : List D)
    (es : List (D × ProofStep D))
    (hupd : updateF hp roots ins [] = some (R', es))
    (huniq : pairwiseDisjB
      (levelsOf hp (stageIns (bucketsInit roots) ins) []) = true)
    (x : D) (hx : x ∈ ins) :
    verifyF hp R' (proveF hp es x) = true := by
  unfold updateF updateS at hupd
  have happ : applyDeletions hp roots [] (bucketsInit roots)
      = some (bucketsInit roots) := rfl
  rw [happ] at hupd
  dsimp only at hupd
  by_cases hall : (newRootsOf (runMergeAux hp (stageIns (bucketsInit roots) ins) [])).all
      (fun b => decide (b.length ≤ 1)) = true
  case neg =>
    rw [if_neg hall] at hupd
    exact absurd hupd (by simp)
  rw [if_pos hall] at hupd
  simp only [Option.some.injEq, Prod.mk.injEq] at hupd
  obtain ⟨hR, hes⟩ := hupd
  have hxmem : x ∈ (match stageIns (bucketsInit roots) ins with
      | [] => ([] : List D)
      | b :: _ => b ++ []) := by
    cases hbi : bucketsInit roots with
    | nil =>
      unfold stageIns
      simp [hx]
    | cons b0 r0 =>
      unfold stageIns
      simp [hx]
  obtain ⟨steps, hbound, hwalk, hroot⟩ :=
    walkW hp (stageIns (bucketsInit roots) ins) [] huniq x hxmem
  have hprove : proveF hp es x = ⟨steps, x⟩ := by
    unfold proveF
    have hlen : (runMergeAux hp (stageIns (bucketsInit roots) ins) []).edges.length
        = es.length := by rw [hes]
    have hw := hwalk [] (es.length + 1)
      (fun k s hks => absurd hks (List.not_mem_nil _))
      (by omega)
    rw [List.nil_append, hes] at hw
    rw [hw]
  rw [hprove, ← hR]
  cases hroot with
  | inl hl =>
    obtain ⟨hn, hget⟩ := hl
    apply verify_of_bucket hp _ x (steps.foldl (parent hp) x) steps
    · calc steps.length
          < (runMergeAux hp (stageIns (bucketsInit roots) ins) []).leftovers.length := hn
        _ ≤ (newRootsOf (runMergeAux hp (stageIns (bucketsInit roots) ins) [])).length := by
            unfold newRootsOf
            rw [List.length_append, List.length_map]
            omega
    · rw [newRootsOf_getD_left _ _ hn]
      rw [List.get_eq_getElem] at hget
      rw [List.getD_eq_getElem?_getD, List.getElem?_eq_getElem hn, hget]
      rfl
    · rfl
  | inr hr =>
    obtain ⟨heq, hmem⟩ := hr
    have htop1 : (runMergeAux hp (stageIns (bucketsInit roots) ins) []).top.length ≤ 1 :=
      (newRoots_all_iff _).mp hall
    have htop : (runMergeAux hp (stageIns (bucketsInit roots) ins) []).top
        = [steps.foldl (parent hp) x] :=
      singleton_of_mem_len_le_one hmem htop1
    apply verify_of_bucket hp _ x (steps.foldl (parent hp) x) steps
    · rw [newRootsOf_length]
      rw [if_neg (by rw [List.isEmpty_iff, htop]; simp)]
      omega
    · rw [heq, newRootsOf_getD_top _ (by rw [htop]; simp), htop]
    · rfl

/-- C1 (witness for the amended claim): inserting `[1, 3]` into a fresh
empty forest satisfies the height-distinctness hypothesis, and the proof of
leaf 1 verifies. -/
theorem c1_witness :
    verifyF pairHash [none, some 22]
      (proveF pairHash [(1, ⟨3, false⟩), (3, ⟨1, true⟩)] 1) = true :=
  c1_amended pairHash [] [none, some 22] [1, 3]
    [(1, ⟨3, false⟩), (3, ⟨1, true⟩)] (by decide) (by decide) 1 (by decide)

namespace Utreexo

/-- Fuel adequacy for the delete walk: at any height not beyond the step
count, any two fuels large enough to cover the remaining steps produce the
same result.  In particular the fuel `steps.length + 1` passed by `deleteF`
is sufficient: the fuel-exhaustion arm of `deleteWalk` is unreachable, so the
embedding agrees with the unbounded source loop. -/
theorem deleteWalk_fuel_congr {D : Type} [DecidableEq D] (hp : D → D → D)
    (roots : List (Option D)) (steps : List (ProofStep D)) :
    ∀ (f₁ f₂ height : Nat) (B : List (List D)) (hash : D),
      height ≤ steps.length →
      steps.length < height + f₁ → steps.length < height + f₂ →
      deleteWalk hp roots steps f₁ B height hash
        = deleteWalk hp roots steps f₂ B height hash
  | 0, f₂, height, B, hash => by
    intro hle h1 _
    omega
  | f₁ + 1, 0, height, B, hash => by
    intro hle _ h2
    omega
  | f₁ + 1, f₂ + 1, height, B, hash => by
    intro hle h1 h2
    rw [deleteWalk, deleteWalk]
    cases hf : (if height < B.length then findRoot hash (B.getD height []) else none) with
    | some idx => rfl
    | none =>
      dsimp only
      by_cases hlt : height < steps.length
      · rw [dif_pos hlt, dif_pos hlt]
        exact deleteWalk_fuel_congr hp roots steps f₁ f₂ (height + 1) _ _
          (by omega) (by omega) (by omega)
      · rw [dif_neg hlt, dif_neg hlt]

end Utreexo
